/-
  Verification of the Code Knowledge Graph & Hybrid Retrieval Engine
  (daneel/data/graph_rag and related modules).

  This file gives a shallow embedding, in Lean 4, of the data model and the
  operations of the engine: the knowledge-graph node type and its string
  serialization (graph.py), graph save/load round-trip, the embedding
  adapter's batching and ordered streaming (hybrid_search.py), the search
  index bulk actions and hybrid search result shaping, the PageRank edge
  weight function and the result ordering of GraphRag.search (__init__.py),
  the AST indexer's scope recursion (code_indexing.py), and the ingestion
  progress events (serving.py).  Machine integers are modelled as Nat/Int,
  Python dict/list state as explicit lists, and fallible code as
  Option/Except.
-/
import Mathlib

namespace GraphRagSpec

/-! ### Decimal string serialization (Python str(int) / int(str))

`KGNode.str_dict` serializes every attribute with Python `str`, and
`from_str_dict` parses back with `int`.  We model decimal rendering with a
fuel-based digit extraction (kernel-computable) and parsing as the usual
most-significant-first accumulator fold, matching CPython semantics on
non-negative integers. -/

/-- The character for a single decimal digit (`0 ≤ d ≤ 9`). -/
def digitChar (d : Nat) : Char :=
  match d with
  | 0 => '0' | 1 => '1' | 2 => '2' | 3 => '3' | 4 => '4'
  | 5 => '5' | 6 => '6' | 7 => '7' | 8 => '8' | 9 => '9'
  | _ => '*'

/-- Inverse of `digitChar` on decimal digit characters. -/
def charDigit (c : Char) : Option Nat :=
  if c = '0' then some 0 else if c = '1' then some 1
  else if c = '2' then some 2 else if c = '3' then some 3
  else if c = '4' then some 4 else if c = '5' then some 5
  else if c = '6' then some 6 else if c = '7' then some 7
  else if c = '8' then some 8 else if c = '9' then some 9
  else none

/-- Decimal digits of `n`, least significant first, with explicit fuel so the
definition is structural (kernel-computable). -/
def natDigitsRev (fuel n : Nat) : List Nat :=
  match fuel with
  | 0 => []
  | fuel + 1 => if n = 0 then [] else n % 10 :: natDigitsRev fuel (n / 10)

/-- Python `str` on a non-negative integer. -/
def natToStr (n : Nat) : String :=
  if n = 0 then "0" else String.mk (((natDigitsRev (n + 1) n).reverse).map digitChar)

/-- Most-significant-first decimal accumulator, as in Python `int(str)`. -/
def parseDigits : List Char → Nat → Option Nat
  | [], acc => some acc
  | c :: cs, acc =>
    match charDigit c with
    | some d => parseDigits cs (acc * 10 + d)
    | none => none

/-- Python `int` on a string (only non-negative decimals arise here). -/
def strToNat (s : String) : Option Nat :=
  if s.data.isEmpty then none else parseDigits s.data 0

theorem charDigit_digitChar {d : Nat} (h : d < 10) : charDigit (digitChar d) = some d := by
  interval_cases d <;> rfl

theorem natDigitsRev_lt (fuel n : Nat) : ∀ d ∈ natDigitsRev fuel n, d < 10 := by
  induction fuel generalizing n with
  | zero => intro d hd; simp [natDigitsRev] at hd
  | succ fuel ih =>
    intro d hd
    by_cases h0 : n = 0
    · simp [natDigitsRev, h0] at hd
    · simp only [natDigitsRev, if_neg h0, List.mem_cons] at hd
      rcases hd with hd | hd
      · subst hd; exact Nat.mod_lt _ (by omega)
      · exact ih _ _ hd

theorem foldl_natDigitsRev (fuel : Nat) :
    ∀ n acc, n ≤ fuel →
      (natDigitsRev fuel n).reverse.foldl (fun a d => a * 10 + d) acc
        = acc * 10 ^ (natDigitsRev fuel n).length + n := by
  induction fuel with
  | zero => intro n acc h; interval_cases n; simp [natDigitsRev]
  | succ fuel ih =>
    intro n acc h
    by_cases h0 : n = 0
    · simp [natDigitsRev, h0]
    · have hdiv : n / 10 ≤ fuel := by
        have hlt : n / 10 < n := Nat.div_lt_self (Nat.pos_of_ne_zero h0) (by norm_num)
        omega
      simp only [natDigitsRev, if_neg h0, List.reverse_cons, List.foldl_append,
        List.foldl_cons, List.foldl_nil, List.length_cons]
      rw [ih (n / 10) acc hdiv, pow_succ, ← Nat.mul_assoc, Nat.add_mul]
      omega

theorem parseDigits_map_digitChar :
    ∀ (ds : List Nat) (acc : Nat), (∀ d ∈ ds, d < 10) →
      parseDigits (ds.map digitChar) acc
        = some (ds.foldl (fun a d => a * 10 + d) acc) := by
  intro ds
  induction ds with
  | nil => intro acc _; rfl
  | cons d ds ih =>
    intro acc hall
    have hd : d < 10 := hall d (by simp)
    simp only [List.map_cons, parseDigits, charDigit_digitChar hd, List.foldl_cons]
    exact ih _ (fun x hx => hall x (by simp [hx]))

theorem natDigitsRev_ne_nil {n : Nat} (h0 : n ≠ 0) : natDigitsRev (n + 1) n ≠ [] := by
  simp [natDigitsRev, h0]

/-- Round trip: Python `int(str(n)) = n`. -/
theorem strToNat_natToStr (n : Nat) : strToNat (natToStr n) = some n := by
  by_cases h0 : n = 0
  · subst h0; rfl
  · have hne := natDigitsRev_ne_nil h0
    have hne2 : ((natDigitsRev (n + 1) n).reverse).map digitChar ≠ [] := by
      simp [hne]
    unfold natToStr strToNat
    rw [if_neg h0]
    simp only [String.mk, List.isEmpty_iff, if_neg hne2]
    rw [parseDigits_map_digitChar _ 0
      (fun d hd => natDigitsRev_lt _ _ d (List.mem_reverse.mp hd))]
    rw [foldl_natDigitsRev _ _ 0 (Nat.le_succ n)]
    simp

/-- `str(n)` is never the string `"None"`. -/
theorem natToStr_ne_none_str (n : Nat) : natToStr n ≠ "None" := by
  by_cases h0 : n = 0
  · subst h0; decide
  · unfold natToStr
    rw [if_neg h0]
    intro h
    have hdata : ((natDigitsRev (n + 1) n).reverse).map digitChar = "None".data := by
      have := congrArg String.data h
      simpa using this
    have hne := natDigitsRev_ne_nil h0
    rcases hrev : (natDigitsRev (n + 1) n).reverse with _ | ⟨d, ds⟩
    · exact hne (by simpa using congrArg List.reverse hrev)
    · rw [hrev] at hdata
      simp only [List.map_cons] at hdata
      have hd : d < 10 := by
        refine natDigitsRev_lt (n + 1) n d ?_
        have hm : d ∈ (natDigitsRev (n + 1) n).reverse := by rw [hrev]; simp
        exact List.mem_reverse.mp hm
      have hN : digitChar d = 'N' := by
        have := congrArg (fun l => l.headD ' ') hdata
        simpa using this
      interval_cases d <;> exact absurd hN (by decide)

/-! ### The knowledge-graph data model (graph.py)

`KGNode` mirrors the pydantic model: `type`, `symbol`, `file_name`,
0-indexed `line`, optional exclusive `end_line`, optional `db_id` and `id`.
Line numbers are non-negative in Python (`Range.to_dict` emits
`line + 1 ≥ 1` and the indexer subtracts one), so `Nat` is faithful. -/

inductive KGNodeType where
  | FILE
  | CLASS
  | FUNCTION
deriving DecidableEq, Repr

/-- `KGNodeType.name` in Python (the enum member name). -/
def KGNodeType.name : KGNodeType → String
  | .FILE => "FILE"
  | .CLASS => "CLASS"
  | .FUNCTION => "FUNCTION"

/-- `KGNodeType[s]` in Python (enum lookup by name; raises on other names). -/
def kgNodeTypeOfName (s : String) : Option KGNodeType :=
  if s = "FILE" then some .FILE
  else if s = "CLASS" then some .CLASS
  else if s = "FUNCTION" then some .FUNCTION
  else none

structure KGNode where
  type : KGNodeType
  symbol : String
  file_name : String
  line : Nat
  end_line : Option Nat := none
  db_id : Option Nat := none
  id : Option Nat := none
deriving DecidableEq, Repr

/-- Python `str` applied to an `Optional[int]`: `str(None) = "None"`. -/
def strOptNat : Option Nat → String
  | none => "None"
  | some n => natToStr n

/-- Parse back an optional int as `from_str_dict` does:
`int(d[k]) if d[k] != "None" else None`. -/
def parseOptNat (s : String) : Option (Option Nat) :=
  if s = "None" then some none
  else (strToNat s).map some

/-- The string dictionary written per node by `KGNode.str_dict`
(field order: type, symbol, file_name, line, end_line, db_id, id). -/
structure NodeStrDict where
  type : String
  symbol : String
  file_name : String
  line : String
  end_line : String
  db_id : String
  id : String
deriving DecidableEq, Repr

def KGNode.str_dict (n : KGNode) : NodeStrDict :=
  { type := n.type.name
    symbol := n.symbol
    file_name := n.file_name
    line := natToStr n.line
    end_line := strOptNat n.end_line
    db_id := strOptNat n.db_id
    id := strOptNat n.id }

/-- `KGNode.from_str_dict` (graph.py): rebuilds the node, parsing the
stringified numbers and mapping `"None"` back to `None`.  Parse failures
(which raise in Python) are modelled as `none`. -/
def KGNode.from_str_dict (d : NodeStrDict) : Option KGNode := do
  let t ← kgNodeTypeOfName d.type
  let line ← strToNat d.line
  let endLine ← parseOptNat d.end_line
  let dbId ← parseOptNat d.db_id
  let id ← parseOptNat d.id
  pure { type := t, symbol := d.symbol, file_name := d.file_name,
         line := line, end_line := endLine, db_id := dbId, id := id }

theorem kgNodeTypeOfName_name (t : KGNodeType) : kgNodeTypeOfName t.name = some t := by
  cases t <;> rfl

theorem parseOptNat_strOptNat (o : Option Nat) : parseOptNat (strOptNat o) = some o := by
  cases o with
  | none => rfl
  | some n =>
    simp only [strOptNat, parseOptNat, if_neg (natToStr_ne_none_str n),
      strToNat_natToStr]
    rfl

/-- Per-node round trip of the string serialization. -/
theorem from_str_dict_str_dict (n : KGNode) :
    KGNode.from_str_dict n.str_dict = some n := by
  simp only [KGNode.str_dict, KGNode.from_str_dict, kgNodeTypeOfName_name,
    strToNat_natToStr, parseOptNat_strOptNat, Option.bind_eq_bind,
    Option.some_bind]
  rfl

/-! ### The directed multigraph and its node-link JSON form (graph.py)

The in-memory `rx.PyDiGraph` is modelled as a list of node payloads (the
position is the rustworkx node index) and a list of edges
`(src index, dst index, attrs)`.  `CodeKnowledgeGraph.save` writes
`str_dict` per node and only `type` (string) and `reverse` (`"1"`/`"0"`)
per edge; `load` parses nodes and edges back and then, for every edge
index, merges in `idx`, `src_file` and `target_file` looked up from the
endpoint payloads. -/

structure EdgeAttrs where
  type : String
  src_file : String
  target_file : String
  reverse : Bool
  /-- present only on loaded graphs (`load` merges `{"idx": idx}`). -/
  idx : Option Nat := none
deriving DecidableEq, Repr

structure DiGraph where
  nodes : List KGNode
  edges : List (Nat × Nat × EdgeAttrs)
deriving DecidableEq, Repr

structure SavedGraph where
  nodes : List NodeStrDict
  links : List (Nat × Nat × String × String)
deriving DecidableEq, Repr

/-- `CodeKnowledgeGraph.save` (graph.py lines 69-79). -/
def saveGraph (g : DiGraph) : SavedGraph :=
  { nodes := g.nodes.map KGNode.str_dict
    links := g.edges.map fun e =>
      (e.1, e.2.1, e.2.2.type, if e.2.2.reverse then "1" else "0") }

/-- Enumerate a list with indices starting at `k`. -/
def indexFrom (k : Nat) : List α → List (Nat × α)
  | [] => []
  | a :: as => (k, a) :: indexFrom (k + 1) as

/-- Effectful map over a list in the `Option` monad (first failure wins),
used to model loops whose body may raise. -/
def mapOpt (f : α → Option β) : List α → Option (List β)
  | [] => some []
  | a :: as => do
    let b ← f a
    let bs ← mapOpt f as
    pure (b :: bs)

/-- The per-edge part of `CodeKnowledgeGraph.load` (graph.py lines 93-102):
parse attrs (`reverse := d["reverse"] == "1"`) and merge in `idx` and the
endpoint `file_name` values (`get_node_data` raises on a dangling endpoint,
modelled as `none`). -/
def loadEdge (nodes : List KGNode) (ie : Nat × Nat × Nat × String × String) :
    Option (Nat × Nat × EdgeAttrs) := do
  let (i, (s, d, t, r)) := ie
  let sn ← nodes.get? s
  let dn ← nodes.get? d
  pure (s, d, { type := t, src_file := sn.file_name,
                target_file := dn.file_name, reverse := r == "1",
                idx := some i : EdgeAttrs })

def loadGraph (sg : SavedGraph) : Option DiGraph := do
  let nodes ← mapOpt KGNode.from_str_dict sg.nodes
  let edges ← mapOpt (loadEdge nodes) (indexFrom 0 sg.links)
  pure { nodes := nodes, edges := edges }

/-- What each edge must look like after a save/load round trip: same
endpoints, same `type` and `reverse`, and `src_file`/`target_file`
reconstituted from the endpoint nodes (plus the merged edge index). -/
def roundTripEdge (nodes : List KGNode) (i : Nat) (e : Nat × Nat × EdgeAttrs) :
    Nat × Nat × EdgeAttrs :=
  (e.1, e.2.1,
   { type := e.2.2.type
     src_file := ((nodes.get? e.1).map KGNode.file_name).getD ""
     target_file := ((nodes.get? e.2.1).map KGNode.file_name).getD ""
     reverse := e.2.2.reverse
     idx := some i })

theorem mapOpt_from_str_dict (ns : List KGNode) :
    mapOpt KGNode.from_str_dict (ns.map KGNode.str_dict) = some ns := by
  induction ns with
  | nil => rfl
  | cons n ns ih =>
    simp [mapOpt, from_str_dict_str_dict, ih]

theorem indexFrom_map (k : Nat) (f : α → β) (l : List α) :
    indexFrom k (l.map f) = (indexFrom k l).map (fun p => (p.1, f p.2)) := by
  induction l generalizing k with
  | nil => rfl
  | cons a l ih => simp [indexFrom, ih]

theorem loadEdges_of_saved (nodes : List KGNode) :
    ∀ (es : List (Nat × Nat × EdgeAttrs)) (k : Nat),
      (∀ e ∈ es, e.1 < nodes.length ∧ e.2.1 < nodes.length) →
      mapOpt (loadEdge nodes)
          (indexFrom k (es.map fun e =>
            (e.1, e.2.1, e.2.2.type, if e.2.2.reverse then "1" else "0")))
        = some ((indexFrom k es).map fun p => roundTripEdge nodes p.1 p.2) := by
  intro es
  induction es with
  | nil => intro k _; rfl
  | cons e es ih =>
    intro k h
    obtain ⟨hs, hd⟩ := h e (by simp)
    have hsget : nodes.get? e.1 = some (nodes.get ⟨e.1, hs⟩) := List.get?_eq_get hs
    have hdget : nodes.get? e.2.1 = some (nodes.get ⟨e.2.1, hd⟩) := List.get?_eq_get hd
    simp only [List.map_cons, indexFrom, mapOpt, loadEdge, hsget, hdget,
      Option.bind_eq_bind, Option.some_bind,
      ih (k + 1) (fun x hx => h x (by simp [hx]))]
    cases hrev : e.2.2.reverse <;>
      simp [roundTripEdge, hsget, hdget, hrev,
        List.getElem?_eq_getElem hs, List.getElem?_eq_getElem hd]

/-- C2 round-trip theorem body: see `graph_save_load_round_trip` below. -/
def roundTripGraph (g : DiGraph) : DiGraph :=
  { nodes := g.nodes
    edges := (indexFrom 0 g.edges).map fun p => roundTripEdge g.nodes p.1 p.2 }

/-- C2: For every graph `g`, saving and loading preserves every node's
`id`, `symbol`, `line`, `end_line` (including `end_line = None` surviving
the string serialization) and every edge's `type` and `reverse` flag, and
after load each edge carries `src_file`/`target_file` equal to the
`file_name` of its source/target endpoint nodes. -/
theorem graph_save_load_round_trip (g : DiGraph)
    (hwf : ∀ e ∈ g.edges, e.1 < g.nodes.length ∧ e.2.1 < g.nodes.length) :
    loadGraph (saveGraph g) = some (roundTripGraph g) := by
  simp only [loadGraph, saveGraph, mapOpt_from_str_dict, Option.bind_eq_bind,
    Option.some_bind, loadEdges_of_saved g.nodes g.edges 0 hwf]
  rfl

/-- Concrete witness graph for C2: two nodes (one with `end_line = none`),
one forward edge and its mirrored reverse edge. -/
def witnessGraph : DiGraph :=
  { nodes :=
      [ { type := .FILE, symbol := "a", file_name := "a.py", line := 0,
          end_line := none, db_id := none, id := some 0 },
        { type := .FUNCTION, symbol := "a.foo", file_name := "a.py", line := 1,
          end_line := some 3, db_id := some 7, id := some 1 } ]
    edges :=
      [ (1, 0, { type := "function_def", src_file := "a.py",
                 target_file := "a.py", reverse := false }),
        (0, 1, { type := "function_def", src_file := "a.py",
                 target_file := "a.py", reverse := true }) ] }

theorem graph_save_load_round_trip_witness :
    (∀ e ∈ witnessGraph.edges,
        e.1 < witnessGraph.nodes.length ∧ e.2.1 < witnessGraph.nodes.length) ∧
      loadGraph (saveGraph witnessGraph) = some (roundTripGraph witnessGraph) :=
  ⟨by decide, graph_save_load_round_trip witnessGraph (by decide)⟩

/-! ### Embedding adapter (hybrid_search.py)

`Code.embed` greedily packs the input texts into batches: each text is
appended to the last batch and, when the aggregate character length of that
batch exceeds 20,000, a fresh empty batch is opened.  `Code._embed` sends
only the non-empty texts of a batch to the backend and splices `None` back
at the empty positions.  `ordered_as_completed` dispatches all batch
futures and drains them in input order regardless of completion order.
The backend is abstracted as a pure function `f : String → V`. -/

/-- One step of the batch-building loop in `Code.embed`
(hybrid_search.py lines 198-204). -/
def addText (bs : List (List String)) (t : String) : List (List String) :=
  if 20000 < ((bs.getLastD [] ++ [t]).map String.length).sum then
    (bs.dropLast ++ [bs.getLastD [] ++ [t]]) ++ [[]]
  else bs.dropLast ++ [bs.getLastD [] ++ [t]]

/-- The batches formed by `Code.embed` for the given texts
(starting state `[[]]`). -/
def makeBatches (texts : List String) : List (List String) :=
  texts.foldl addText [[]]

/-- Splice the backend results back over a batch, `None` at empty texts:
the `out` construction loop of `Code._embed` (lines 178-184).  The
`[]` case of the embeddings queue cannot occur when the queue holds one
result per non-empty text (in Python `embeddings.pop(0)` would raise). -/
def spliceEmbeddings {V : Type} : List String → List V → List (Option V)
  | [], _ => []
  | t :: ts, es =>
    if t = "" then none :: spliceEmbeddings ts es
    else
      match es with
      | e :: es2 => some e :: spliceEmbeddings ts es2
      | [] => none :: spliceEmbeddings ts []

/-- `Code._embed` on one batch (hybrid_search.py lines 151-184), with the
backend modelled by `f`: if every text of the batch is empty, return all
`None` without calling the backend; otherwise embed the non-empty texts in
order and splice. -/
def embedBatch {V : Type} (f : String → V) (batch : List String) : List (Option V) :=
  if batch.all (fun t => t = "") then batch.map (fun _ => none)
  else spliceEmbeddings batch ((batch.filter (fun t => t ≠ "")).map f)

/-- `ordered_as_completed` head-popping: after a completion event, yield
from the front of the future queue while the head future has completed
(hybrid_search.py lines 44-55). -/
def oacPop {β : Type} (completed : List Nat) : List (Nat × β) → List β × List (Nat × β)
  | [] => ([], [])
  | (i, v) :: rest =>
    if i ∈ completed then
      let r := oacPop completed rest
      (v :: r.1, r.2)
    else ([], (i, v) :: rest)

/-- A full `ordered_as_completed` run: `events` is the sequence of
completion sets returned by `asyncio.wait(..., FIRST_COMPLETED)`; the
accumulated completed set only grows, and values are yielded strictly in
queue order. -/
def oacRun {β : Type} (completed : List Nat) (queue : List (Nat × β)) :
    List (List Nat) → List β
  | [] => []
  | d :: events =>
    let completed2 := completed ++ d
    let r := oacPop completed2 queue
    r.1 ++ oacRun completed2 r.2 events

/-- `Code.embed` (hybrid_search.py lines 195-215): when embeddings are
enabled, stream the per-batch results through `ordered_as_completed` under
the completion schedule `events` and flatten; when globally disabled, yield
`None` for every input text. -/
def embedRun {V : Type} (f : String → V) (enabled : Bool) (texts : List String)
    (events : List (List Nat)) : List (Option V) :=
  if enabled then
    (oacRun [] (indexFrom 0 ((makeBatches texts).map (embedBatch f))) events).flatten
  else texts.map fun _ => none

theorem addText_ne_nil (bs : List (List String)) (t : String) : addText bs t ≠ [] := by
  unfold addText
  split <;> simp

theorem flatten_addText (bs : List (List String)) (t : String) (h : bs ≠ []) :
    (addText bs t).flatten = bs.flatten ++ [t] := by
  have hsplit : bs.dropLast ++ [bs.getLastD []] = bs := by
    rw [List.getLastD_eq_getLast?, List.getLast?_eq_getLast _ h]
    exact List.dropLast_append_getLast h
  unfold addText
  split
  all_goals
    conv_rhs => rw [← hsplit]
  all_goals
    simp [List.getLastD_eq_getLast?]

theorem flatten_makeBatches (texts : List String) :
    (makeBatches texts).flatten = texts := by
  suffices h : ∀ (bs : List (List String)), bs ≠ [] →
      (texts.foldl addText bs).flatten = bs.flatten ++ texts by
    simpa using h [[]] (by simp)
  induction texts with
  | nil => intro bs _; simp
  | cons t ts ih =>
    intro bs hbs
    simp only [List.foldl_cons]
    rw [ih _ (addText_ne_nil bs t), flatten_addText bs t hbs]
    simp

/-- The batching invariant behind C4: every batch so far satisfies the
budget on all texts but its last, and the still-open last batch is within
the budget outright. -/
def batchInv (bs : List (List String)) : Prop :=
  bs ≠ [] ∧ (∀ b ∈ bs, ((b.dropLast).map String.length).sum ≤ 20000) ∧
    (((bs.getLastD []).map String.length).sum ≤ 20000)

theorem batchInv_addText {bs : List (List String)} (t : String) (h : batchInv bs) :
    batchInv (addText bs t) := by
  obtain ⟨hne, hall, hlast⟩ := h
  unfold addText
  have hmem : ∀ b ∈ bs.dropLast ++ [bs.getLastD [] ++ [t]],
      ((b.dropLast).map String.length).sum ≤ 20000 := by
    intro b hb
    rcases List.mem_append.mp hb with hb | hb
    · exact hall b ((List.dropLast_sublist bs).subset hb)
    · have hb2 : b = bs.getLastD [] ++ [t] := by simpa using hb
      subst hb2
      simpa [List.dropLast_concat] using hlast
  split
  · refine ⟨by simp, ?_, by simp⟩
    intro b hb
    rcases List.mem_append.mp hb with hb | hb
    · exact hmem b hb
    · have hb2 : b = [] := by simpa using hb
      simp [hb2]
  · refine ⟨by simp, hmem, ?_⟩
    rename_i hle
    rw [List.getLastD_concat]
    omega

theorem batchInv_makeBatches (texts : List String) : batchInv (makeBatches texts) := by
  suffices h : ∀ (bs : List (List String)), batchInv bs →
      batchInv (texts.foldl addText bs) by
    refine h [[]] ⟨by simp, ?_, by simp⟩
    intro b hb
    have hb2 : b = [] := by simpa using hb
    simp [hb2]
  induction texts with
  | nil => intro bs h; simpa using h
  | cons t ts ih =>
    intro bs h
    simpa using ih _ (batchInv_addText t h)

theorem spliceEmbeddings_filter {V : Type} (f : String → V) :
    ∀ ts : List String,
      spliceEmbeddings ts ((ts.filter (fun t => t ≠ "")).map f)
        = ts.map (fun t => if t = "" then none else some (f t)) := by
  intro ts
  induction ts with
  | nil => rfl
  | cons t ts ih =>
    simp only [decide_not] at ih ⊢
    by_cases h : t = ""
    · subst h
      simpa [spliceEmbeddings, List.filter_cons] using ih
    · simp [spliceEmbeddings, List.filter_cons, h, ih]

theorem embedBatch_eq {V : Type} (f : String → V) (batch : List String) :
    embedBatch f batch = batch.map (fun t => if t = "" then none else some (f t)) := by
  unfold embedBatch
  split
  · rename_i hall
    have hall2 : ∀ t ∈ batch, t = "" := by simpa using hall
    exact List.map_congr_left fun t ht => by simp [hall2 t ht]
  · exact spliceEmbeddings_filter f batch

theorem oacPop_indexFrom {β : Type} (completed : List Nat) :
    ∀ (vs : List β) (k : Nat), ∃ m, m ≤ vs.length ∧
      oacPop completed (indexFrom k vs) = (vs.take m, indexFrom (k + m) (vs.drop m)) ∧
      (m = vs.length ∨ (k + m) ∉ completed) := by
  intro vs
  induction vs with
  | nil =>
    intro k
    exact ⟨0, by simp, by simp [indexFrom, oacPop], Or.inl rfl⟩
  | cons a vs ih =>
    intro k
    by_cases hk : k ∈ completed
    · obtain ⟨m, hm, hpop, hend⟩ := ih (k + 1)
      refine ⟨m + 1, by simpa using hm, ?_, ?_⟩
      · simp only [indexFrom, oacPop, if_pos hk, hpop]
        rw [show k + (m + 1) = k + 1 + m from by omega]
        simp
      · rcases hend with h | h
        · exact Or.inl (by simp [h])
        · refine Or.inr ?_
          rw [show k + (m + 1) = k + 1 + m from by omega]
          exact h
    · exact ⟨0, by simp, by simp [indexFrom, oacPop, if_neg hk], Or.inr (by simpa using hk)⟩

theorem oacRun_indexFrom {β : Type} :
    ∀ (events : List (List Nat)) (completed : List Nat) (k : Nat) (vs : List β),
      (∀ j < vs.length, (k + j) ∈ completed ++ events.flatten) →
      (events = [] → vs = []) →
      oacRun completed (indexFrom k vs) events = vs := by
  intro events
  induction events with
  | nil =>
    intro completed k vs _ h2
    rw [h2 rfl]
    rfl
  | cons d evs ih =>
    intro completed k vs h1 _
    obtain ⟨m, hm, hpop, hend⟩ := oacPop_indexFrom (completed ++ d) vs k
    simp only [oacRun, hpop]
    rw [ih (completed ++ d) (k + m) (vs.drop m) ?h1 ?h2]
    · exact List.take_append_drop m vs
    case h1 =>
      intro j hj
      have hj2 : m + j < vs.length := by
        have := List.length_drop m vs
        omega
      have := h1 (m + j) hj2
      simp only [List.flatten_cons, List.append_assoc] at this ⊢
      rw [show k + m + j = k + (m + j) by omega]
      simpa [List.mem_append] using this
    case h2 =>
      intro hevs
      subst hevs
      rcases hend with h | h
      · simp [h]
      · by_contra hne
        have hlt : m < vs.length := by
          by_contra hge
          exact hne (List.drop_eq_nil_of_le (by omega))
        have hmem := h1 m hlt
        simp only [List.flatten_cons, List.flatten_nil, List.append_nil] at hmem
        exact h (by simpa [List.mem_append] using hmem)

/-- C3: `Code.embed(texts, input_type)` yields exactly `len(texts)` values,
the i-th value corresponding to `texts[i]` for every completion order of
the underlying batches (any schedule `events` that eventually completes
every batch future), every empty-string input yields `None` without being
sent to the backend, and when embeddings are globally disabled every input
yields `None`. -/
theorem embed_yields_in_order {V : Type} (f : String → V) (texts : List String)
    (events : List (List Nat))
    (hcover : ∀ j, j < (makeBatches texts).length → j ∈ events.flatten) :
    embedRun f true texts events
        = texts.map (fun t => if t = "" then none else some (f t)) ∧
      (embedRun f true texts events).length = texts.length ∧
      embedRun f false texts events = texts.map (fun _ => none) := by
  have hrun : oacRun [] (indexFrom 0 ((makeBatches texts).map (embedBatch f))) events
      = (makeBatches texts).map (embedBatch f) := by
    apply oacRun_indexFrom
    · intro j hj
      simpa using hcover j (by simpa using hj)
    · intro hevs
      subst hevs
      have hlen : (makeBatches texts).length = 0 := by
        by_contra hne
        have := hcover 0 (Nat.pos_of_ne_zero hne)
        simp at this
      simp [List.eq_nil_of_length_eq_zero hlen]
  have h1 : embedRun f true texts events
      = texts.map (fun t => if t = "" then none else some (f t)) := by
    simp only [embedRun, if_true, hrun]
    rw [List.map_congr_left fun b _ => embedBatch_eq f b, ← List.map_flatten,
      flatten_makeBatches]
  refine ⟨h1, ?_, ?_⟩
  · rw [h1, List.length_map]
  · simp [embedRun]

theorem embed_yields_in_order_witness :
    (∀ j, j < (makeBatches ["a", "", "bc"]).length → j ∈ ([[0]] : List (List Nat)).flatten) ∧
      embedRun String.length true ["a", "", "bc"] [[0]]
        = (["a", "", "bc"].map fun t => if t = "" then none else some t.length) :=
  ⟨by decide, (embed_yields_in_order String.length ["a", "", "bc"] [[0]] (by decide)).1⟩

/-- C4 (amended): each batch formed by the greedy packing in `Code.embed`
stays within the 20,000 aggregate-character budget on all of its texts
except possibly the last one appended (the batch is closed only after the
budget is exceeded), i.e. dropping the final text of any batch leaves an
aggregate length of at most 20,000. -/
theorem embed_batch_budget_before_last (texts : List String) :
    ∀ b ∈ makeBatches texts, ((b.dropLast).map String.length).sum ≤ 20000 :=
  (batchInv_makeBatches texts).2.1

theorem embed_batch_budget_before_last_witness :
    (["ab"] ∈ makeBatches ["ab"]) ∧
      (((["ab"] : List String).dropLast).map String.length).sum ≤ 20000 :=
  ⟨by decide, embed_batch_budget_before_last ["ab"] ["ab"] (by decide)⟩

/-- A single text of 20,001 characters: its batch exceeds the 20,000
aggregate budget. -/
def overBudgetText : String := String.mk (List.replicate 20001 'a')

theorem makeBatches_single_over_budget (t : String) (h : 20000 < t.length) :
    makeBatches [t] = [[t], []] := by
  rw [show makeBatches [t] = addText [[]] t from rfl]
  unfold addText
  rw [show ([[]] : List (List String)).getLastD [] = [] from rfl]
  simp [h]

/-- C4 counterexample: the claim that every batch has aggregate character
length at most 20,000 fails, because a text is appended to the current
batch before the budget check, so a batch can exceed the budget (by its
final text). -/
theorem embed_batch_budget_counterexample :
    ¬ ∀ b ∈ makeBatches [overBudgetText], (b.map String.length).sum ≤ 20000 := by
  intro h
  have hlen : overBudgetText.length = 20001 := by
    rw [show overBudgetText.length = (List.replicate 20001 'a').length from rfl,
      List.length_replicate]
  have hmk : makeBatches [overBudgetText] = [[overBudgetText], []] :=
    makeBatches_single_over_budget overBudgetText (by rw [hlen]; norm_num)
  have hle := h [overBudgetText] (by rw [hmk]; exact List.mem_cons_self _ _)
  rw [List.map_cons, List.map_nil, hlen, List.sum_cons, List.sum_nil] at hle
  omega

/-! ### Search index actions and the delete path (hybrid_search.py, models.py)

`SearchIndexAction` mirrors the pydantic model (all fields optional).  A
row of the `code` table is `(id PK, file, text, nodeid, graphid,
embedding)`.  `DBModel.delete_many(ids)` runs
`DELETE FROM code WHERE id IN (...)` — a row is removed only when its `id`
equals a non-NULL element of the list (comparison with SQL NULL never
matches), and the statement is skipped entirely for an empty list. -/

inductive SearchIndexActionType where
  | CREATE
  | DELETE
deriving DecidableEq, Repr

structure SearchIndexAction where
  type : SearchIndexActionType := .CREATE
  file : Option String := none
  content : Option String := none
  embedding : Option (List ℚ) := none
  id : Option Nat := none
  node_id : Option Nat := none
deriving DecidableEq, Repr

structure CodeRow where
  id : Nat
  file : String
  text : String
  nodeid : Nat
  graphid : String
deriving DecidableEq, Repr

/-- `DBModel.delete_many` (models.py lines 176-183), with SQL NULL
semantics for `None` parameters. -/
def deleteManyRows (ids : List (Option Nat)) (table : List CodeRow) : List CodeRow :=
  if ids.isEmpty then table
  else table.filter fun r => !(ids.contains (some r.id))

/-- The id list that `Code.bulk_action` passes to `delete_many`:
`[x.id for x in actions[SearchIndexActionType.DELETE]]`
(hybrid_search.py line 270) — note `x.id`, not `x.node_id`. -/
def bulkActionDeleteIds (actions : List SearchIndexAction) : List (Option Nat) :=
  (actions.filter fun a => a.type == SearchIndexActionType.DELETE).map fun a => a.id

/-- The DELETE actions constructed by `GraphRag.invalidate`
(graph_rag/__init__.py lines 112-120): only `node_id` is set, `id` keeps
its default `None`. -/
def invalidateActions (nodeIds : List Nat) : List SearchIndexAction :=
  nodeIds.map fun nid => { type := .DELETE, node_id := some nid }

/-- `GraphRag.invalidate(file_names)` (graph_rag/__init__.py lines
102-120): build `ids_by_file` from the graph nodes once, then per file
remove the nodes from the graph and run the DELETE bulk action against the
search index.  The graph is a list of `(node index, payload)` pairs, the
index the list of `code` rows. -/
def graphRagInvalidate (nodes : List (Nat × KGNode)) (table : List CodeRow)
    (fileNames : List String) : List (Nat × KGNode) × List CodeRow :=
  let idsByFile := fun f => (nodes.filter fun p => p.2.file_name == f).map fun p => p.1
  fileNames.foldl
    (fun st f =>
      let nids := idsByFile f
      (st.1.filter fun p => !(nids.contains p.1),
       deleteManyRows (bulkActionDeleteIds (invalidateActions nids)) st.2))
    (nodes, table)

theorem bulkActionDeleteIds_invalidate (nodeIds : List Nat) :
    bulkActionDeleteIds (invalidateActions nodeIds) = nodeIds.map fun _ => none := by
  induction nodeIds with
  | nil => rfl
  | cons n ns ih =>
    simp only [invalidateActions, List.map_cons, bulkActionDeleteIds,
      List.filter_cons] at ih ⊢
    simp
    simpa using ih

theorem contains_some_map_none (nids : List Nat) (x : Nat) :
    ((nids.map fun _ => (none : Option Nat)).contains (some x)) = false := by
  induction nids with
  | nil => rfl
  | cons n ns ih =>
    simp only [List.map_cons, List.contains_cons, ih]
    rfl

theorem deleteManyRows_all_none (nids : List Nat) (table : List CodeRow) :
    deleteManyRows (nids.map fun _ => none) table = table := by
  cases nids with
  | nil => rfl
  | cons n ns =>
    simp only [deleteManyRows, List.map_cons, List.isEmpty_cons, if_neg Bool.false_ne_true]
    conv_rhs => rw [← List.filter_true table]
    apply List.filter_congr
    intro r _
    rw [show (none :: ns.map fun _ => (none : Option Nat))
          = ((n :: ns).map fun _ => (none : Option Nat)) from by simp]
    simp [contains_some_map_none]

/-- C1 (code divergence): `GraphRag.invalidate` never deletes any search
index row — the DELETE actions carry the node ids in `node_id`, but
`Code.bulk_action` passes `x.id` (always `None`) to `delete_many`, so the
generated `DELETE ... WHERE id IN (NULL, ...)` matches no row.  The table
after `invalidate` is always exactly the table before. -/
theorem invalidate_deletes_no_rows (nodes : List (Nat × KGNode)) (table : List CodeRow)
    (fileNames : List String) : (graphRagInvalidate nodes table fileNames).2 = table := by
  unfold graphRagInvalidate
  suffices h : ∀ (fs : List String) (ns : List (Nat × KGNode)) (tbl : List CodeRow),
      (fs.foldl (fun st f =>
        (st.1.filter fun p => !(((nodes.filter fun q => q.2.file_name == f).map fun q => q.1).contains p.1),
         deleteManyRows (bulkActionDeleteIds (invalidateActions
           ((nodes.filter fun q => q.2.file_name == f).map fun q => q.1))) st.2))
        (ns, tbl)).2 = tbl by
    exact h fileNames nodes table
  intro fs
  induction fs with
  | nil => intro ns tbl; rfl
  | cons f fs ih =>
    intro ns tbl
    simp only [List.foldl_cons]
    rw [bulkActionDeleteIds_invalidate, deleteManyRows_all_none]
    exact ih _ tbl

/-! ### Seed bias in GraphRag.search (graph_rag/__init__.py lines 243-251)

`personalization` is a dict built from the hybrid-search hits (insertion
order = hit order); when `seed_nodes` is truthy the code computes
`max(personalization.values())`, which raises `ValueError` on an empty
dict.  Dicts are modelled as association lists, the raise as `Except`. -/

/-- Python dict update for a single key: overwrite in place when present,
append otherwise. -/
def dictUpsert (l : List (Nat × ℚ)) (k : Nat) (v : ℚ) : List (Nat × ℚ) :=
  if l.any fun p => p.1 == k then
    l.map fun p => if p.1 == k then (k, v) else p
  else l ++ [(k, v)]

/-- The personalization-building and seed-bias step of `GraphRag.search`:
`personalization = {hit.node_id: score}`, then
`personalization.update({node.id: max(personalization.values()) for node
in seed_nodes})` when `seed_nodes` is non-empty.  `max` over an empty
collection raises `ValueError`. -/
def seedBiasStep (searchHits : List (Nat × ℚ)) (seeds : List Nat) :
    Except String (List (Nat × ℚ)) :=
  let personalization := searchHits
  if seeds.isEmpty then .ok personalization
  else
    match personalization.map fun p => p.2 with
    | [] => .error "max() arg is an empty sequence"
    | v :: vs =>
      .ok (seeds.foldl (fun d k => dictUpsert d k (vs.foldl max v)) personalization)

/-- C10: when the hybrid search returns no hits and `seed_nodes` is a
non-empty list, the seed-bias step of `GraphRag.search` raises (max() over
the empty collection of personalization values) instead of producing a
personalization. -/
theorem seedBias_raises_on_empty_hits (seeds : List Nat) (hne : seeds ≠ []) :
    seedBiasStep [] seeds = .error "max() arg is an empty sequence" := by
  unfold seedBiasStep
  rw [if_neg (by simpa using hne)]
  rfl

theorem seedBias_raises_on_empty_hits_witness :
    ([3] : List Nat) ≠ [] ∧
      seedBiasStep [] [3] = .error "max() arg is an empty sequence" :=
  ⟨by decide, seedBias_raises_on_empty_hits [3] (by decide)⟩

/-! ### The PageRank edge weight function (graph_rag/__init__.py 255-275)

`weight_fn` first tests `"test" in target_file.split("_")[0]` and returns
1.0 / 0.10 depending on `only_tests`; otherwise 0.01 when `only_tests`,
1.0 when the effective direction matches the pass
(`reverse ^ e["reverse"]`) and the type is ranked, else 0.01.  Python
`split("_")` and substring `in` are modelled character-exactly.  The float
constants are modelled as the rationals 1, 1/10, 1/100 (only their
identity matters). -/

/-- Python `s.split("_")`: split on every underscore; no empty groups are
dropped, the empty string yields one empty group. -/
def pySplitUnderscore : List Char → List (List Char)
  | [] => [[]]
  | c :: rest =>
    match pySplitUnderscore rest with
    | [] => [[]]
    | g :: gs => if c = '_' then [] :: g :: gs else (c :: g) :: gs

/-- Whether `needle` is a prefix of `hay` (Boolean, structural). -/
def listPrefixOf : List Char → List Char → Bool
  | [], _ => true
  | _ :: _, [] => false
  | a :: as, b :: bs => a == b && listPrefixOf as bs

/-- Python `needle in hay` substring containment. -/
def containsSub (needle : List Char) : List Char → Bool
  | [] => listPrefixOf needle []
  | c :: rest => listPrefixOf needle (c :: rest) || containsSub needle rest

/-- The branch predicate of `weight_fn`:
`"test" in target_file.split("_")[0]`. -/
def containsTest (s : String) : Bool :=
  containsSub "test".data ((pySplitUnderscore s.data).headD [])

/-- Edge types ranked by the direction-sensitive branch:
`("call", "class_ref", "test_coverage")`. -/
def edgeTypeRanked (t : String) : Bool :=
  t == "call" || t == "class_ref" || t == "test_coverage"

/-- `weight_fn` from `weight_fn_wrapper(only_tests, reverse)`
(graph_rag/__init__.py lines 255-275). -/
def weight_fn (only_tests rv : Bool) (e : EdgeAttrs) : ℚ :=
  if containsTest e.target_file then
    if only_tests then 1 else 1/10
  else if only_tests then 1/100
  else if (xor rv e.reverse) && edgeTypeRanked e.type then 1
  else 1/100

theorem pySplitUnderscore_ne_nil (cs : List Char) : pySplitUnderscore cs ≠ [] := by
  induction cs with
  | nil => simp [pySplitUnderscore]
  | cons c rest ih =>
    simp only [pySplitUnderscore]
    split
    · simp
    · split <;> simp

theorem pySplitUnderscore_head (cs : List Char) :
    (pySplitUnderscore cs).headD [] = cs.takeWhile fun c => !(c == '_') := by
  induction cs with
  | nil => rfl
  | cons c rest ih =>
    simp only [pySplitUnderscore]
    rcases h : pySplitUnderscore rest with _ | ⟨g, gs⟩
    · exact absurd h (pySplitUnderscore_ne_nil rest)
    · rw [h] at ih
      by_cases hc : c = '_'
      · subst hc
        simp [List.takeWhile_cons]
      · simp only [if_neg hc, List.headD_cons, List.takeWhile_cons]
        simp only [List.headD_cons] at ih
        simp [hc, ih]

theorem listPrefixOf_iff (needle : List Char) :
    ∀ hay : List Char, listPrefixOf needle hay = true ↔ needle <+: hay := by
  induction needle with
  | nil => intro hay; simp [listPrefixOf, List.nil_prefix]
  | cons a as ih =>
    intro hay
    cases hay with
    | nil => simp [listPrefixOf]
    | cons b bs =>
      simp only [listPrefixOf, Bool.and_eq_true, beq_iff_eq, ih bs,
        List.cons_prefix_cons]

theorem containsSub_iff (needle : List Char) :
    ∀ hay : List Char, containsSub needle hay = true ↔ needle <:+: hay := by
  intro hay
  induction hay with
  | nil =>
    simp only [containsSub, listPrefixOf_iff, List.infix_iff_prefix_suffix]
    constructor
    · intro h
      exact ⟨[], h, List.nil_suffix⟩
    · rintro ⟨t, hp, hs⟩
      rwa [List.suffix_nil.mp hs] at hp
  | cons c rest ih =>
    simp only [containsSub, Bool.or_eq_true, listPrefixOf_iff, ih,
      List.infix_cons_iff]

/-- C6: an edge whose `target_file` satisfies the test-file predicate gets
weight 1.0 when `only_tests` and 0.1 otherwise; an edge that does not
satisfy it never takes this branch (it gets the non-test weights instead);
and the predicate is exactly the occurrence of the substring `"test"` in
`target_file.split("_")[0]` (the characters before the first
underscore). -/
theorem weight_fn_test_branch (only_tests rv : Bool) (e : EdgeAttrs) :
    (containsTest e.target_file = true →
        weight_fn only_tests rv e = if only_tests then 1 else 1/10) ∧
      (containsTest e.target_file = false →
        weight_fn only_tests rv e =
          if only_tests then 1/100
          else if (xor rv e.reverse) && edgeTypeRanked e.type then 1 else 1/100) ∧
      (containsTest e.target_file = true ↔
        ("test".data : List Char) <:+:
          (e.target_file.data.takeWhile fun c => !(c == '_'))) := by
  refine ⟨?_, ?_, ?_⟩
  · intro h
    simp [weight_fn, h]
  · intro h
    simp [weight_fn, h]
  · rw [containsTest, containsSub_iff, pySplitUnderscore_head]

theorem weight_fn_test_branch_witness :
    containsTest "tests/foo.py" = true ∧
      weight_fn false false
          { type := "call", src_file := "x.py", target_file := "tests/foo.py",
            reverse := false }
        = 1/10 := by
  have h := (weight_fn_test_branch false false
    { type := "call", src_file := "x.py", target_file := "tests/foo.py",
      reverse := false }).1 (by decide)
  exact ⟨by decide, by simpa using h⟩

/-! ### Result ordering (GraphRag.search lines 299-311, Code.search 272-335)

`GraphRag.search` ends with
`sorted(merged.items(), key=lambda x: x[1], reverse=True)[:graph_top]`
followed by the overlay-deletion filter.  CPython `sorted` is a stable
mergesort and `reverse=True` keeps equal elements in their original
relative order, which is modelled by `List.mergeSort` with
`le a b := (b.score ≤ a.score)`.  `merged` is the accumulated PageRank
mapping: `rx.pagerank` scores every node index and the mapping is
enumerated in ascending node-index order, which is the `Pairwise` premise
below.  Nodes are identified by their ids (the zip with `get_nodes` maps
ids to payloads 1:1); the overlay-deletion test is abstracted as a
predicate on the node id. -/

/-- Stable descending sort by score, as CPython
`sorted(..., key=lambda x: x[1], reverse=True)`. -/
def pySortByScoreDesc (l : List (Nat × ℚ)) : List (Nat × ℚ) :=
  l.mergeSort fun a b => decide (b.2 ≤ a.2)

/-- The returned ranking of `GraphRag.search`: stable-sort the merged
PageRank scores descending, truncate to `graph_top`, and drop nodes whose
file was deleted in the overlay. -/
def graphSearchOut (merged : List (Nat × ℚ)) (graph_top : Nat)
    (deletedInOverlay : Nat → Bool) : List (Nat × ℚ) :=
  ((pySortByScoreDesc merged).take graph_top).filter fun p => !(deletedInOverlay p.1)

theorem scoreDesc_trans : ∀ a b c : Nat × ℚ,
    (fun a b : Nat × ℚ => decide (b.2 ≤ a.2)) a b = true →
    (fun a b : Nat × ℚ => decide (b.2 ≤ a.2)) b c = true →
    (fun a b : Nat × ℚ => decide (b.2 ≤ a.2)) a c = true := by
  intro a b c h1 h2
  simp only [decide_eq_true_eq] at h1 h2 ⊢
  exact le_trans h2 h1

theorem scoreDesc_total : ∀ a b : Nat × ℚ,
    ((fun a b : Nat × ℚ => decide (b.2 ≤ a.2)) a b ||
      (fun a b : Nat × ℚ => decide (b.2 ≤ a.2)) b a) = true := by
  intro a b
  rcases le_total a.2 b.2 with h | h <;> simp [h]

/-- C5: with the merged PageRank mapping enumerated in ascending node-id
order, the list returned by `GraphRag.search` is sorted by score
descending, and among returned pairs with equal score the order is by
node id ascending (stability of the sort). -/
theorem search_sorted_and_ties_by_id (merged : List (Nat × ℚ)) (graph_top : Nat)
    (deletedInOverlay : Nat → Bool)
    (hasc : merged.Pairwise fun a b => a.1 < b.1) :
    (graphSearchOut merged graph_top deletedInOverlay).Pairwise
        (fun a b => b.2 ≤ a.2) ∧
      ∀ s : ℚ, ((graphSearchOut merged graph_top deletedInOverlay).filter
          fun p => decide (p.2 = s)).Pairwise fun a b => a.1 < b.1 := by
  have hsorted : (pySortByScoreDesc merged).Pairwise fun a b => b.2 ≤ a.2 := by
    have h := List.sorted_mergeSort scoreDesc_trans scoreDesc_total merged
    exact h.imp fun hab => by simpa using hab
  have hout_sub : (graphSearchOut merged graph_top deletedInOverlay).Sublist
      (pySortByScoreDesc merged) :=
    ((List.filter_sublist _).trans (List.take_sublist _ _))
  constructor
  · exact List.Pairwise.sublist hout_sub hsorted
  · intro s
    have hfin_eq : (pySortByScoreDesc merged).filter (fun p => decide (p.2 = s))
        = merged.filter fun p => decide (p.2 = s) := by
      have hperm : List.Perm
          ((pySortByScoreDesc merged).filter fun p => decide (p.2 = s))
          (merged.filter fun p => decide (p.2 = s)) :=
        (List.mergeSort_perm merged _).filter _
      have hpw : (merged.filter fun p => decide (p.2 = s)).Pairwise
          fun a b : Nat × ℚ => decide (b.2 ≤ a.2) = true := by
        refine List.pairwise_iff_forall_sublist.mpr ?_
        intro a b hab
        have hmem_a : a ∈ merged.filter fun p => decide (p.2 = s) :=
          hab.subset (by simp)
        have hmem_b : b ∈ merged.filter fun p => decide (p.2 = s) :=
          hab.subset (by simp)
        have has : a.2 = s := by simpa using (List.mem_filter.mp hmem_a).2
        have hbs : b.2 = s := by simpa using (List.mem_filter.mp hmem_b).2
        simp [has, hbs]
      have hsub : (merged.filter fun p => decide (p.2 = s)).Sublist
          (pySortByScoreDesc merged) :=
        List.sublist_mergeSort scoreDesc_trans scoreDesc_total hpw
          (List.filter_sublist _)
      have hsub2 : (merged.filter fun p => decide (p.2 = s)).Sublist
          ((pySortByScoreDesc merged).filter fun p => decide (p.2 = s)) := by
        have h := hsub.filter fun p => decide (p.2 = s)
        rw [List.filter_filter] at h
        simpa [Bool.and_self] using h
      exact (hsub2.eq_of_length (hperm.length_eq.symm)).symm
    have hfin_pw : ((pySortByScoreDesc merged).filter
        fun p => decide (p.2 = s)).Pairwise fun a b => a.1 < b.1 := by
      rw [hfin_eq]
      exact hasc.filter _
    have hsub3 : (((graphSearchOut merged graph_top deletedInOverlay).filter
        fun p => decide (p.2 = s)).Sublist
        ((pySortByScoreDesc merged).filter fun p => decide (p.2 = s))) :=
      hout_sub.filter _
    exact List.Pairwise.sublist hsub3 hfin_pw

theorem search_sorted_and_ties_by_id_witness :
    ([(0, (2 : ℚ)), (1, 1), (2, 1)].Pairwise
        fun a b : Nat × ℚ => a.1 < b.1) ∧
      ((graphSearchOut [(0, (2 : ℚ)), (1, 1), (2, 1)] 3 fun _ => false).Pairwise
          (fun a b => b.2 ≤ a.2) ∧
        ∀ s : ℚ, ((graphSearchOut [(0, (2 : ℚ)), (1, 1), (2, 1)] 3
            fun _ => false).filter
            fun p => decide (p.2 = s)).Pairwise fun a b => a.1 < b.1) :=
  ⟨by decide,
   search_sorted_and_ties_by_id [(0, (2 : ℚ)), (1, 1), (2, 1)] 3
     (fun _ => false) (by decide)⟩

/-! ### Code.search result shape (hybrid_search.py lines 272-335)

The SQL both in the hybrid and the BM25-only branch ends with
`WHERE code.graphid = ? ORDER BY score DESC LIMIT top`.  The scored
candidate set (the `scores` CTE joined back to `code`) is abstracted as an
input list of `(row, score)` pairs; the Python-side signature declares
`top: int = 20`. -/

/-- The declared default of the `top` parameter of `Code.search`
(hybrid_search.py line 277). -/
def codeSearchDefaultTop : Nat := 20

/-- `Code.search`: restrict to the requested graph, order by combined
score descending, limit to `top`. -/
def codeSearch (scored : List (CodeRow × ℚ)) (graph_id : String) (top : Nat) :
    List (CodeRow × ℚ) :=
  ((scored.filter fun r => r.1.graphid == graph_id).mergeSort
    fun a b => decide (b.2 ≤ a.2)).take top

/-- `Code.search` called without an explicit `top`. -/
def codeSearchDefault (scored : List (CodeRow × ℚ)) (graph_id : String) :
    List (CodeRow × ℚ) :=
  codeSearch scored graph_id codeSearchDefaultTop

theorem rowDesc_trans : ∀ a b c : CodeRow × ℚ,
    (fun a b : CodeRow × ℚ => decide (b.2 ≤ a.2)) a b = true →
    (fun a b : CodeRow × ℚ => decide (b.2 ≤ a.2)) b c = true →
    (fun a b : CodeRow × ℚ => decide (b.2 ≤ a.2)) a c = true := by
  intro a b c h1 h2
  simp only [decide_eq_true_eq] at h1 h2 ⊢
  exact le_trans h2 h1

theorem rowDesc_total : ∀ a b : CodeRow × ℚ,
    ((fun a b : CodeRow × ℚ => decide (b.2 ≤ a.2)) a b ||
      (fun a b : CodeRow × ℚ => decide (b.2 ≤ a.2)) b a) = true := by
  intro a b
  rcases le_total a.2 b.2 with h | h <;> simp [h]

/-- C7 (amended): `Code.search` returns at most `top` rows ordered by
combined score descending, and its declared default for `top` is 20 (the
value 150 is `GraphRag.search_top`, which `GraphRag.search` passes
explicitly). -/
theorem codeSearch_shape (scored : List (CodeRow × ℚ)) (graph_id : String)
    (top : Nat) :
    (codeSearch scored graph_id top).length ≤ top ∧
      (codeSearch scored graph_id top).Pairwise (fun a b => b.2 ≤ a.2) ∧
      codeSearchDefault scored graph_id = codeSearch scored graph_id 20 := by
  refine ⟨?_, ?_, rfl⟩
  · rw [codeSearch]
    exact List.length_take_le top _
  · have hsorted := List.sorted_mergeSort rowDesc_trans rowDesc_total
      (scored.filter fun r => r.1.graphid == graph_id)
    exact List.Pairwise.sublist (List.take_sublist _ _)
      (hsorted.imp fun hab => by simpa using hab)

/-- 21 rows in graph `"g"`, all with combined score 0. -/
def rows21 : List (CodeRow × ℚ) :=
  (List.range 21).map fun i =>
    ({ id := i, file := "", text := "", nodeid := i, graphid := "g" }, (0 : ℚ))

/-- C7 counterexample: called without `top`, `Code.search` truncates to its
declared default 20, not to 150 — on 21 matching rows it returns 20 rows,
whereas with `top = 150` it returns all 21. -/
theorem codeSearch_default_not_150 :
    (codeSearchDefault rows21 "g").length = 20 ∧
      (codeSearch rows21 "g" 150).length = 21 := by
  have hfilter : (rows21.filter fun r => r.1.graphid == "g") = rows21 := by
    refine List.filter_eq_self.mpr ?_
    intro a ha
    simp only [rows21, List.mem_map, List.mem_range] at ha
    obtain ⟨i, _, rfl⟩ := ha
    simp
  have hlen : ((rows21.filter fun r => r.1.graphid == "g").mergeSort
      fun a b : CodeRow × ℚ => decide (b.2 ≤ a.2)).length = 21 := by
    rw [List.length_mergeSort, hfilter]
    simp [rows21]
  constructor
  · simp [codeSearchDefault, codeSearch, codeSearchDefaultTop, List.length_take, hlen]
  · simp [codeSearch, List.length_take, hlen]

/-! ### The AST indexer (code_indexing.py, ast_parse.recurse_scope)

`recurse_scope` walks the nested scope dictionaries produced by
`nested_scopes`.  Scope ranges in the dicts are 1-indexed
(`Location.to_dict` emits `line + 1`), so the indexer subtracts one.  For
a CLASS/FUNCTION scope it emits a `KGNode` with `line = start - 1`,
`end_line = end` (minus one when the end column is 0, and clipped to the
earliest child start for classes), a deferred edge, and the content string
`"# <file>\n# <symbol>\n" + lines[start_line:end_line]`.  Anonymous
scopes (Python-falsy names) take `unknown_<n>` from a shared counter.
There is no decorator handling anywhere in this function. -/

structure ScopePos where
  line : Nat
  col : Nat
deriving DecidableEq, Repr

structure ScopeDict where
  type : String
  name : Option String
  start : ScopePos
  /-- the `range.end` position (`end` is a keyword in Lean). -/
  stop : ScopePos
  children : List ScopeDict
deriving Repr

/-- `scope["name"] or get_unknown_ctr()`: a falsy name (`None` or `""`)
increments the counter and yields `unknown_<ctr>`. -/
def pyNameOr (name : Option String) (ctr : Nat) : String × Nat :=
  match name with
  | some s => if s = "" then ("unknown_" ++ natToStr (ctr + 1), ctr + 1) else (s, ctr)
  | none => ("unknown_" ++ natToStr (ctr + 1), ctr + 1)

structure ParseOut where
  nodes : List KGNode
  contents : List String
  edges : List (String × String × String)
  ctr : Nat
deriving DecidableEq, Repr

theorem ScopeDict.sizeOf_children_lt (s : ScopeDict) : sizeOf s.children < sizeOf s := by
  cases s
  simp

/-- `ast_parse.recurse_scope` (code_indexing.py lines 75-133). -/
def recurseScope (fileName : String) (fileLines : List String) :
    List ScopeDict → String → Nat → ParseOut
  | [], _, ctr => ⟨[], [], [], ctr⟩
  | s :: rest, parentSym, ctr =>
    if s.type = "CLASS" ∨ s.type = "FUNCTION" then
      let nc := pyNameOr s.name ctr
      let startLine := s.start.line - 1
      let endLine0 := if s.stop.col = 0 then s.stop.line - 1 else s.stop.line
      let endLine := if s.type = "CLASS" then
          s.children.foldl (fun e c => min e (c.start.line - 1)) endLine0
        else endLine0
      let sym := parentSym ++ "." ++ nc.1
      let node : KGNode :=
        { type := if s.type = "CLASS" then .CLASS else .FUNCTION
          symbol := sym, file_name := fileName, line := startLine,
          end_line := some endLine }
      let content := "# " ++ fileName ++ "\n# " ++ sym ++ "\n"
          ++ String.intercalate "\n"
              ((fileLines.drop startLine).take (endLine - startLine))
      let edgeType := if s.type = "CLASS" then "class_def" else "function_def"
      let rc := recurseScope fileName fileLines s.children sym nc.2
      let rr := recurseScope fileName fileLines rest parentSym rc.ctr
      ⟨node :: (rc.nodes ++ rr.nodes), content :: (rc.contents ++ rr.contents),
       (sym, parentSym, edgeType) :: (rc.edges ++ rr.edges), rr.ctr⟩
    else
      let rc := recurseScope fileName fileLines s.children parentSym ctr
      let rr := recurseScope fileName fileLines rest parentSym rc.ctr
      ⟨rc.nodes ++ rr.nodes, rc.contents ++ rr.contents,
       rc.edges ++ rr.edges, rr.ctr⟩
termination_by scopes _ _ => sizeOf scopes
decreasing_by
  all_goals simp_wf
  all_goals have h1 := ScopeDict.sizeOf_children_lt s
  all_goals omega

/-- C8 (amended): the indexer performs no decorator expansion — every
CLASS/FUNCTION node emitted by `recurse_scope` has `line` equal to the
0-indexed start line of its scope as reported by the parser, and its
content string is exactly `"# <file>\n# <symbol>\n"` followed by the
source lines starting at that same `line` (up to the node's clipped
`end_line`).  Content and node are emitted in lockstep. -/
theorem recurseScope_content_uses_node_line (fileName : String)
    (fileLines : List String) (scopes : List ScopeDict) (parentSym : String)
    (ctr : Nat) :
    ((recurseScope fileName fileLines scopes parentSym ctr).nodes.length
        = (recurseScope fileName fileLines scopes parentSym ctr).contents.length) ∧
      ∀ p ∈ (recurseScope fileName fileLines scopes parentSym ctr).nodes.zip
          (recurseScope fileName fileLines scopes parentSym ctr).contents,
        ∃ e, p.1.end_line = some e ∧
          p.2 = "# " ++ fileName ++ "\n# " ++ p.1.symbol ++ "\n"
            ++ String.intercalate "\n"
                ((fileLines.drop p.1.line).take (e - p.1.line)) := by
  have main : ∀ (n : Nat) (scopes : List ScopeDict), sizeOf scopes < n →
      ∀ (parentSym : String) (ctr : Nat),
      ((recurseScope fileName fileLines scopes parentSym ctr).nodes.length
          = (recurseScope fileName fileLines scopes parentSym ctr).contents.length) ∧
        ∀ p ∈ (recurseScope fileName fileLines scopes parentSym ctr).nodes.zip
            (recurseScope fileName fileLines scopes parentSym ctr).contents,
          ∃ e, p.1.end_line = some e ∧
            p.2 = "# " ++ fileName ++ "\n# " ++ p.1.symbol ++ "\n"
              ++ String.intercalate "\n"
                  ((fileLines.drop p.1.line).take (e - p.1.line)) := by
    intro n
    induction n with
    | zero => intro scopes h; exact absurd h (Nat.not_lt_zero _)
    | succ n ih =>
      intro scopes hsz parentSym ctr
      match scopes with
      | [] => rw [recurseScope]; simp
      | s :: rest =>
        have hlt := ScopeDict.sizeOf_children_lt s
        have hcons : sizeOf (s :: rest) = 1 + sizeOf s + sizeOf rest := by simp
        rw [hcons] at hsz
        have h1 : sizeOf s.children < n := by omega
        have h2 : sizeOf rest < n := by omega
        have ihc := ih s.children h1
        have ihr := ih rest h2
        by_cases hc : s.type = "CLASS" ∨ s.type = "FUNCTION"
        · rw [recurseScope, if_pos hc]
          dsimp only
          obtain ⟨ihl1, ihp1⟩ :=
            ihc (parentSym ++ "." ++ (pyNameOr s.name ctr).1) (pyNameOr s.name ctr).2
          obtain ⟨ihl2, ihp2⟩ := ihr parentSym
            (recurseScope fileName fileLines s.children
              (parentSym ++ "." ++ (pyNameOr s.name ctr).1) (pyNameOr s.name ctr).2).ctr
          refine ⟨by simp [ihl1, ihl2], ?_⟩
          intro p hp
          rw [List.zip_cons_cons, List.zip_append ihl1] at hp
          rcases List.mem_cons.mp hp with hp | hp
          · subst hp
            exact ⟨_, rfl, rfl⟩
          · rcases List.mem_append.mp hp with hp | hp
            · exact ihp1 p hp
            · exact ihp2 p hp
        · rw [recurseScope, if_neg hc]
          dsimp only
          obtain ⟨ihl1, ihp1⟩ := ihc parentSym ctr
          obtain ⟨ihl2, ihp2⟩ := ihr parentSym
            (recurseScope fileName fileLines s.children parentSym ctr).ctr
          refine ⟨by simp [ihl1, ihl2], ?_⟩
          intro p hp
          rw [List.zip_append ihl1] at hp
          rcases List.mem_append.mp hp with hp | hp
          · exact ihp1 p hp
          · exact ihp2 p hp
  exact main (sizeOf scopes + 1) scopes (by omega) parentSym ctr

/-- The decorated-function example: file lines with a decorator line
immediately above a function whose scope the parser reports at 1-indexed
lines 2-3 (end position (4,0)). -/
def c8Lines : List String := ["@dec", "def foo():", "    pass"]

def c8Scopes : List ScopeDict :=
  [{ type := "FUNCTION", name := some "foo", start := ⟨2, 0⟩, stop := ⟨4, 0⟩,
     children := [] }]

def c8Node : KGNode :=
  { type := .FUNCTION, symbol := "a.foo", file_name := "a.py", line := 1,
    end_line := some 3 }

def c8Content : String := "# a.py\n# a.foo\ndef foo():\n    pass"

theorem recurseScope_content_uses_node_line_witness :
    ((c8Node, c8Content)
        ∈ (recurseScope "a.py" c8Lines c8Scopes "a" 0).nodes.zip
            (recurseScope "a.py" c8Lines c8Scopes "a" 0).contents) ∧
      ∃ e, c8Node.end_line = some e ∧
        c8Content = "# " ++ "a.py" ++ "\n# " ++ c8Node.symbol ++ "\n"
          ++ String.intercalate "\n"
              ((c8Lines.drop c8Node.line).take (e - c8Node.line)) :=
  ⟨by simp only [c8Lines, c8Scopes, recurseScope]; decide,
   (recurseScope_content_uses_node_line "a.py" c8Lines c8Scopes "a" 0).2
     (c8Node, c8Content)
     (by simp only [c8Lines, c8Scopes, recurseScope]; decide)⟩

/-- C8 counterexample: for a Python function carrying a decorator on the
line above, the emitted node has `line = 1` — the `def` line, not the
decorator-expanded 0 — and its content omits the decorator line, even
though the line immediately above starts with `@`. -/
theorem indexer_no_decorator_expansion_cx :
    (recurseScope "a.py" c8Lines c8Scopes "a" 0).nodes.map KGNode.line = [1] ∧
      (recurseScope "a.py" c8Lines c8Scopes "a" 0).contents = [c8Content] ∧
      ("@dec".data.headD ' ') = '@' := by
  refine ⟨?_, ?_, by decide⟩ <;>
    (simp only [c8Lines, c8Scopes, recurseScope]; decide)

/-! ### Ingestion progress (hybrid_search.py 242-268, serving.py 574-607)

`Code.bulk_action` fires `progress_cb(i / total)` after each insert batch,
where `i` is the cumulative number of processed create actions and `total`
their count; the batch sizes are the chunk lengths of `async_chunk(..., 100)`.
`BismuthAPI._api_codegraph` forwards each callback value as an
`IN_PROGRESS` event and finally emits a COMPLETED event with
`progress=100.0`. -/

/-- Cumulative progress values reported by the create path of
`bulk_action`: after each chunk, `i` grows by the chunk size and
`i / total` is reported. -/
def cumProgress (total : Nat) : List Nat → Nat → List ℚ
  | [], _ => []
  | c :: rest, i => ((i + c : Nat) : ℚ) / (total : ℚ) :: cumProgress total rest (i + c)

/-- The full list of values passed to `progress_cb` during one
`bulk_action` with insert chunks of sizes `chunks`. -/
def bulkActionProgress (chunks : List Nat) (total : Nat) : List ℚ :=
  cumProgress total chunks 0

structure IngestEvent where
  step : String
  status : String
  progress : Option ℚ
deriving DecidableEq, Repr

/-- The `Building code graph` events streamed by `_api_codegraph`: one
`IN_PROGRESS` event per progress callback, then a COMPLETED event with
`progress=100.0` (serving.py lines 590-607). -/
def ingestEvents (chunks : List Nat) (total : Nat) : List IngestEvent :=
  ((bulkActionProgress chunks total).map fun p =>
    { step := "Building code graph", status := "IN_PROGRESS", progress := some p })
  ++ [{ step := "Building code graph", status := "COMPLETED", progress := some 100 }]

theorem cumProgress_bounds (total : Nat) (htot : 0 < total) :
    ∀ (chunks : List Nat) (i : Nat), i + chunks.sum ≤ total →
      (∀ p ∈ cumProgress total chunks i,
          ((i : ℚ) / (total : ℚ)) ≤ p ∧ p ≤ 1) ∧
        ((cumProgress total chunks i).Chain' (· ≤ ·)) := by
  intro chunks
  induction chunks with
  | nil => intro i _; exact ⟨by simp [cumProgress], by simp [cumProgress]⟩
  | cons c rest ih =>
    intro i hle
    have htq : (0 : ℚ) < (total : ℚ) := by exact_mod_cast htot
    have hsum : (i + c) + rest.sum ≤ total := by
      simp only [List.sum_cons] at hle
      omega
    obtain ⟨ihb, ihch⟩ := ih (i + c) hsum
    have hmono : ((i : ℚ)) / (total : ℚ) ≤ ((i + c : Nat) : ℚ) / (total : ℚ) := by
      refine (div_le_div_iff_of_pos_right htq).mpr ?_
      exact_mod_cast Nat.le_add_right i c
    have hub : ((i + c : Nat) : ℚ) / (total : ℚ) ≤ 1 := by
      refine (div_le_one htq).mpr ?_
      exact_mod_cast le_trans (Nat.le_add_right _ _) hsum
    constructor
    · intro p hp
      simp only [cumProgress, List.mem_cons] at hp
      rcases hp with hp | hp
      · subst hp
        exact ⟨hmono, hub⟩
      · obtain ⟨hl, hr⟩ := ihb p hp
        exact ⟨le_trans hmono hl, hr⟩
    · simp only [cumProgress]
      refine List.chain'_cons'.mpr ⟨?_, ihch⟩
      intro h hh
      exact (ihb h (List.mem_of_mem_head? hh)).1

/-- C9 (amended): every progress value reported by the `bulk_action`
progress callback is `i/total` and lies in `[0, 1]`, the callback values
are non-decreasing, and the progress fields of the streamed ingest events
are non-decreasing overall — but the COMPLETED event reports
`progress = 100.0`, not a value in `[0, 1]`. -/
theorem ingest_progress_monotone (chunks : List Nat) (total : Nat)
    (hsum : chunks.sum = total) (htot : 0 < total) :
    (∀ p ∈ bulkActionProgress chunks total, 0 ≤ p ∧ p ≤ 1) ∧
      (bulkActionProgress chunks total).Chain' (· ≤ ·) ∧
      ((ingestEvents chunks total).filterMap fun e => e.progress).Chain' (· ≤ ·) ∧
      (ingestEvents chunks total).getLast?
        = some { step := "Building code graph", status := "COMPLETED",
                 progress := some 100 } := by
  obtain ⟨hb, hch⟩ := cumProgress_bounds total htot chunks 0 (by omega)
  have hbounds : ∀ p ∈ bulkActionProgress chunks total, 0 ≤ p ∧ p ≤ 1 := by
    intro p hp
    obtain ⟨hl, hr⟩ := hb p hp
    refine ⟨le_trans ?_ hl, hr⟩
    simp
  have haux : ∀ l : List ℚ,
      (l.map fun p =>
        ({ step := "Building code graph", status := "IN_PROGRESS",
           progress := some p } : IngestEvent)).filterMap (fun e => e.progress) = l := by
    intro l
    induction l with
    | nil => rfl
    | cons a l ih => simp [ih]
  have hfm : ((ingestEvents chunks total).filterMap fun e => e.progress)
      = bulkActionProgress chunks total ++ [100] := by
    simp [ingestEvents, List.filterMap_append, haux]
  refine ⟨hbounds, hch, ?_, ?_⟩
  · rw [hfm]
    refine List.chain'_append.mpr ⟨hch, by simp, ?_⟩
    intro x hx y hy
    have hx2 : x ∈ bulkActionProgress chunks total := List.mem_of_mem_getLast? hx
    have hy2 : 100 = y := by simpa using hy
    subst hy2
    exact le_trans (hbounds x hx2).2 (by norm_num)
  · exact List.getLast?_concat _

theorem ingest_progress_monotone_witness :
    (([2, 1] : List Nat).sum = 3 ∧ 0 < 3) ∧
      ((∀ p ∈ bulkActionProgress [2, 1] 3, 0 ≤ p ∧ p ≤ 1) ∧
        (bulkActionProgress [2, 1] 3).Chain' (· ≤ ·) ∧
        ((ingestEvents [2, 1] 3).filterMap fun e => e.progress).Chain' (· ≤ ·) ∧
        (ingestEvents [2, 1] 3).getLast?
          = some { step := "Building code graph", status := "COMPLETED",
                   progress := some 100 }) :=
  ⟨⟨by decide, by decide⟩, ingest_progress_monotone [2, 1] 3 (by decide) (by decide)⟩

/-- C9 counterexample: the claim that every `progress` field of a streamed
ingest event (including the COMPLETED event) lies in `[0, 1]` is false —
the COMPLETED event carries `progress = 100.0`. -/
theorem ingest_progress_above_one_cx :
    ¬ ∀ e ∈ ingestEvents [1] 1, ∀ p : ℚ, e.progress = some p → 0 ≤ p ∧ p ≤ 1 := by
  intro h
  have hmem : ({ step := "Building code graph", status := "COMPLETED",
                 progress := some 100 } : IngestEvent) ∈ ingestEvents [1] 1 := by
    simp [ingestEvents]
  have h2 := (h _ hmem 100 rfl).2
  norm_num at h2

end GraphRagSpec
